import Mathlib

/-!
Shallow embedding of the KeyForge asynchronous logging pipeline
(src/ADVANCED_LOGGERS/Logger.cpp and its header) in Lean 4.

Machine integers (size_t, int) are modelled as Nat; the C++ containers
std::vector / std::deque are modelled as Lists; the file system of the
rotating sink is a map from file index to optional content.  Wall-clock
timestamps are opaque to every claim, so timeToString is abstracted to
the decimal rendering of a numeric timestamp; thread ids are likewise
numeric.  Stateful methods become pure state-transformers; the single
worker thread is sequentialised (submissions first, then dispatch),
which is the interleaving the ordering/shutdown claims quantify over.
-/

namespace KeyForge

/-- Severity levels, mirroring `enum class LogLevel : uint8_t` with
TRACE = 0 through FATAL = 5. -/
inductive LogLevel where
  | TRACE
  | DEBUG
  | INFO
  | WARN
  | ERROR
  | FATAL
deriving DecidableEq, Repr

/-- Underlying integral value of a LogLevel, as the C++ enum values used
by `level < threshold_` comparisons and by the JSON numeric `lvl` field. -/
def LogLevel.toNat : LogLevel → Nat
  | .TRACE => 0
  | .DEBUG => 1
  | .INFO => 2
  | .WARN => 3
  | .ERROR => 4
  | .FATAL => 5

/-- A captured log event, mirroring `struct LogRecord`.  `ts` and
`thread_id` are numeric stand-ins for the time point and thread id. -/
structure LogRecord where
  ts : Nat
  thread_id : Nat
  level : LogLevel
  session_id : Option String
  message : String
deriving DecidableEq, Repr

/-- A value-initialised LogRecord, as produced by `std::vector<LogRecord>::resize`:
epoch timestamp, zero thread id, level 0 (TRACE), no session, empty message. -/
def defaultRec : LogRecord :=
  { ts := 0, thread_id := 0, level := .TRACE, session_id := none, message := "" }

/-- Abstraction of the wall-clock formatter `timeToString`: the claims never
depend on the strftime text, only on the timestamp it carries, so we render
the numeric timestamp. -/
def timeToString (ts : Nat) : String := toString ts

/-- The `[LEVEL] ` tag written by the text formatters (note the padding
spaces inside `[ INFO]` and `[ WARN]`, exactly as in the source switch). -/
def levelTag : LogLevel → String
  | .TRACE => "[TRACE] "
  | .DEBUG => "[DEBUG] "
  | .INFO => "[ INFO] "
  | .WARN => "[ WARN] "
  | .ERROR => "[ERROR] "
  | .FATAL => "[FATAL] "

/-! ## InMemorySink::Ring -/

/-- State of `InMemorySink::Ring`: backing vector `buf`, write cursor
`head`, logical `size`, fixed `capacity`. -/
structure Ring where
  buf : List LogRecord
  head : Nat
  size : Nat
  capacity : Nat
deriving DecidableEq, Repr

/-- A freshly constructed ring: `Ring::Ring(cap)` reserves `cap` slots and
resizes the vector to 0. -/
def mkRing (cap : Nat) : Ring :=
  { buf := [], head := 0, size := 0, capacity := cap }

/-- `Ring::push`: no-op at capacity 0; while size < capacity appends to the
vector; once full overwrites slot `head`; in both cases advances `head`
modulo capacity. -/
def Ring.push (s : Ring) (rec : LogRecord) : Ring :=
  if s.capacity = 0 then s
  else if s.size < s.capacity then
    { s with buf := s.buf ++ [rec], head := (s.head + 1) % s.capacity, size := s.size + 1 }
  else
    { s with buf := s.buf.set s.head rec, head := (s.head + 1) % s.capacity }

/-- `Ring::lastN`: empty result at size 0; otherwise clamps n to size,
computes `start = (head + capacity - size) % capacity` and
`idx = (start + (size - n)) % capacity`, and reads n slots from `idx`
modulo capacity.  Vector indexing is modelled with `getD defaultRec`. -/
def Ring.lastN (s : Ring) (n : Nat) : List LogRecord :=
  if s.size = 0 then []
  else
    let m := min n s.size
    let start := (s.head + s.capacity - s.size) % s.capacity
    let idx := (start + (s.size - m)) % s.capacity
    (List.range m).map (fun i => s.buf.getD ((idx + i) % s.capacity) defaultRec)

/-- `Ring::clear`: clears the vector and then RESIZES IT TO `capacity_`
(leaving `capacity` value-initialised records in it), and zeroes `head`
and `size`.  This differs from the constructor and `reset`, which resize
to 0. -/
def Ring.clear (s : Ring) : Ring :=
  { s with buf := List.replicate s.capacity defaultRec, head := 0, size := 0 }

/-- Push a whole list of records in order. -/
def pushAll (s : Ring) (xs : List LogRecord) : Ring :=
  xs.foldl (fun t r => t.push r) s

/-! ## ConsoleSink -/

/-- Output modes of the console sink, mirroring `enum class Mode`. -/
inductive Mode where
  | PLAIN
  | COLORED
  | JSON
deriving DecidableEq, Repr

/-- Minimal escaping used by the JSON formatters: a backslash is put in
front of every quote or backslash character, nothing else. -/
def escChars : List Char → List Char
  | [] => []
  | c :: rest =>
    if c = Char.ofNat 34 ∨ c = Char.ofNat 92 then Char.ofNat 92 :: c :: escChars rest
    else c :: escChars rest

/-- String version of the minimal quote/backslash escaping. -/
def escapeMin (s : String) : String := String.mk (escChars s.data)

/-- The line `ConsoleSink::consume` builds into `oss` before streaming it to
standard output (the trailing `std::endl` newline is not part of the string).
In JSON mode the numeric level and the message are both quoted; in the other
two modes the SAME plain-text branch runs: the source has no ANSI-colouring
code, so PLAIN and COLORED render identically. -/
def renderConsole (m : Mode) (rec : LogRecord) : String :=
  if m = Mode.JSON then
    "\x7b\"ts\":\"" ++ timeToString rec.ts ++ "\"," ++
    "\"lvl\":\"" ++ toString rec.level.toNat ++ "\"," ++
    "\"tid\":\"" ++ toString rec.thread_id ++ "\"," ++
    (match rec.session_id with
     | some sid => "\"session\":\"" ++ sid ++ "\","
     | none => "") ++
    "\"msg\":\"" ++ escapeMin rec.message ++ "\"\x7d"
  else
    "[" ++ timeToString rec.ts ++ "] " ++ levelTag rec.level ++
    "(t:" ++ toString rec.thread_id ++ ") " ++
    (match rec.session_id with
     | some sid => "<" ++ sid ++ "> "
     | none => "") ++
    rec.message

/-! ## InMemorySink -/

/-- Value of `SIZE_MAX` used by `exportSession` when it asks
`recentForSession` for the whole retained history. -/
def SIZE_MAX : Nat := 2 ^ 64 - 1

/-- State of `InMemorySink`: the global ring, the configured per-session
capacity, and the session registry (an association list keyed by session
id, standing for the unordered_map). -/
structure InMemorySink where
  globalRing : Ring
  per_session_capacity : Nat
  sessions : List (String × Ring)
deriving DecidableEq, Repr

/-- `InMemorySink::consume`: always push to the global ring; when the record
carries a session id, push to that session's ring, creating the ring (with
the per-session capacity) on first use. -/
def InMemorySink.consume (sk : InMemorySink) (rec : LogRecord) : InMemorySink :=
  let sk1 := { sk with globalRing := sk.globalRing.push rec }
  match rec.session_id with
  | none => sk1
  | some sid =>
    let withEntry :=
      match sk1.sessions.lookup sid with
      | some _ => sk1.sessions
      | none => sk1.sessions ++ [(sid, mkRing sk1.per_session_capacity)]
    { sk1 with
      sessions := withEntry.map (fun p => if p.1 = sid then (p.1, p.2.push rec) else p) }

/-- `InMemorySink::recentForSession`: look the session up in the registry;
an absent session yields the empty vector, a present one its ring's lastN. -/
def InMemorySink.recentForSession (sk : InMemorySink) (sid : String) (n : Nat) :
    List LogRecord :=
  match sk.sessions.lookup sid with
  | none => []
  | some r => r.lastN n

/-- One line written by `InMemorySink::exportSession` per record (the
session id is not printed there, unlike the console formatter). -/
def exportLine (r : LogRecord) : String :=
  "[" ++ timeToString r.ts ++ "] " ++ levelTag r.level ++
  "(t:" ++ toString r.thread_id ++ ") " ++ r.message ++ "\n"

/-- `InMemorySink::exportSession`: formats `recentForSession(sid, SIZE_MAX)`
into one newline-terminated line per record. -/
def InMemorySink.exportSession (sk : InMemorySink) (sid : String) : String :=
  String.join ((sk.recentForSession sid SIZE_MAX).map exportLine)

/-- `InMemorySink::clearSession`: erases the session's registry entry. -/
def InMemorySink.clearSession (sk : InMemorySink) (sid : String) : InMemorySink :=
  { sk with sessions := sk.sessions.filter (fun p => p.1 ≠ sid) }

/-! ## RotatingFileSink -/

/-- `RotatingFileSink::formatRecord`: JSON object (numeric unquoted `lvl`,
minimal quote/backslash escaping of the message) or plain text line, each
ending in a newline written by the formatter itself. -/
def formatRecord (json : Bool) (rec : LogRecord) : String :=
  if json then
    "\x7b\"ts\":\"" ++ timeToString rec.ts ++ "\"," ++
    "\"lvl\":" ++ toString rec.level.toNat ++ "," ++
    "\"tid\":\"" ++ toString rec.thread_id ++ "\"" ++
    (match rec.session_id with
     | some sid => ",\"session\":\"" ++ sid ++ "\""
     | none => "") ++
    ",\"msg\":\"" ++ escapeMin rec.message ++ "\"\x7d\n"
  else
    "[" ++ timeToString rec.ts ++ "] " ++ levelTag rec.level ++
    "(t:" ++ toString rec.thread_id ++ ") " ++
    (match rec.session_id with
     | some sid => "<" ++ sid ++ "> "
     | none => "") ++
    rec.message ++ "\n"

/-- One iteration of the rotation loop at index `i`: when `base.i.log`
exists it is renamed onto `base.(i+1).log` (the explicit `remove` of the
destination when `i+1 >= max_files_` and the rename's own overwrite have
the same effect on the file map: the destination slot receives the source's
content and the source slot empties). -/
def rotStep (files : Nat → Option String) (i : Nat) : Nat → Option String :=
  fun j =>
    if (files i).isSome then
      if j = i + 1 then files i else if j = i then none else files j
    else files j

/-- The rotation loop `for (int i = max_files_-1; i >= 0; --i)`: `rotLoop
files n` performs the iterations i = n-1 down to 0. -/
def rotLoop (files : Nat → Option String) : Nat → (Nat → Option String)
  | 0 => files
  | n + 1 => rotLoop (rotStep files n) n

/-- State of `RotatingFileSink`: the numbered files (index `i` holds the
content of `base.i.log`), whether `fp_` is a real file (false = the stdout
fallback), the tracked byte count of the current file, and the configured
limits.  The current open file is always index 0. -/
structure RotSink where
  files : Nat → Option String
  fpValid : Bool
  current_size : Nat
  max_bytes : Nat
  max_files : Nat
  json : Bool

/-- `RotatingFileSink::rotateIfNeeded`: no-op when `fp_` is null/stdout or
when the tracked size plus the pending write still fits; otherwise runs the
rename loop and reopens `base.0.log` truncated, resetting the tracked size
to zero (the fresh fopen is assumed to succeed, as the claims do). -/
def rotateIfNeeded (st : RotSink) (n : Nat) : RotSink :=
  if st.fpValid = false then st
  else if st.current_size + n ≤ st.max_bytes then st
  else
    { st with
      files := fun j => if j = 0 then some "" else rotLoop st.files st.max_files j,
      current_size := 0 }

/-- `RotatingFileSink::consume`: format the record, rotate if needed, then
write the formatted bytes to the current file (index 0 when `fp_` is a real
file; the stdout fallback leaves the file map alone) and add their count to
the tracked size. -/
def RotSink.consume (st : RotSink) (rec : LogRecord) : RotSink :=
  let out := formatRecord st.json rec
  let st1 := rotateIfNeeded st out.length
  if st1.fpValid then
    { st1 with
      files := fun j => if j = 0 then some ((st1.files 0).getD "" ++ out) else st1.files j,
      current_size := st1.current_size + out.length }
  else { st1 with current_size := st1.current_size + out.length }

/-! ## AsyncLogger -/

/-- Sequential state of `AsyncLogger`: the severity threshold, the bounded
intake deque, each registered sink's sequence of consumed records, each
subscriber's sequence of observed records, the queue bound
`max_queue_size_`, and whether the sinks have been flushed. -/
structure LoggerState where
  threshold : LogLevel
  queue : List LogRecord
  sinkLogs : List (List LogRecord)
  subLogs : List (List LogRecord)
  maxQueue : Nat
  flushed : Bool
deriving DecidableEq, Repr

/-- The enqueue step of `AsyncLogger::log`: when the deque already holds
`max_queue_size_` records the front (oldest) one is popped, then the new
record is appended at the back. -/
def enqueueBounded (M : Nat) (q : List LogRecord) (r : LogRecord) : List LogRecord :=
  (if M ≤ q.length then q.tail else q) ++ [r]

/-- `AsyncLogger::log` (sequentialised): a record whose level is below the
threshold is dropped before anything else happens; otherwise it is appended
to the bounded queue and every subscriber is invoked with `queue_.back().rec`
(sequentially, the record just pushed).  The producer is never given an
error: the function is total. -/
def logRec (st : LoggerState) (r : LogRecord) : LoggerState :=
  if r.level.toNat < st.threshold.toNat then st
  else
    let q2 := enqueueBounded st.maxQueue st.queue r
    let back := q2.getLast?.getD defaultRec
    { st with queue := q2, subLogs := st.subLogs.map (fun l => l ++ [back]) }

/-- A sequence of `log` calls. -/
def submitAll (st : LoggerState) (rs : List LogRecord) : LoggerState :=
  rs.foldl logRec st

/-- `AsyncLogger::setLevel`. -/
def setLevel (st : LoggerState) (lvl : LogLevel) : LoggerState :=
  { st with threshold := lvl }

/-- The condition of the worker loop `while (running_.load() || !queue_.empty())`. -/
def loopCond (running : Bool) (q : List LogRecord) : Bool :=
  running || !q.isEmpty

/-- The worker loop once stop has been requested: it keeps popping the front
record and delivering it to every sink until the queue is empty. -/
def drainQueue (q : List LogRecord) (logs : List (List LogRecord)) :
    List (List LogRecord) :=
  match q with
  | [] => logs
  | r :: rest => drainQueue rest (logs.map (fun l => l ++ [r]))

/-- `AsyncLogger::shutdown(flush=true)` (sequentialised): stop is requested,
the joined worker drains the remaining queue record by record into every
sink and flushes the sinks on loop exit, and `shutdown` flushes once more
before returning. -/
def shutdownModel (st : LoggerState) : LoggerState :=
  { st with
    queue := []
    sinkLogs := drainQueue st.queue st.sinkLogs
    flushed := true }

/-! ## Concrete records used by example-level statements -/

/-- Concrete record a. -/
def recA : LogRecord := { ts := 1, thread_id := 7, level := .INFO, session_id := none, message := "a" }

/-- Concrete record b. -/
def recB : LogRecord := { ts := 2, thread_id := 7, level := .WARN, session_id := none, message := "b" }

/-- Concrete record c. -/
def recC : LogRecord := { ts := 3, thread_id := 7, level := .ERROR, session_id := some "S", message := "c" }

/-- Concrete record d. -/
def recD : LogRecord := { ts := 4, thread_id := 7, level := .INFO, session_id := none, message := "d" }

/-- A concrete file layout: content "A" at base.0.log, "B" at base.1.log. -/
def filesW : Nat → Option String :=
  fun k => if k = 0 then some "A" else if k = 1 then some "B" else none

/-- A concrete rotating sink about to overflow (5 bytes tracked, 4 allowed). -/
def rotW : RotSink :=
  { files := filesW, fpValid := true, current_size := 5, max_bytes := 4,
    max_files := 2, json := false }

/-- A concrete rotating sink whose every write overflows (max_bytes 0). -/
def rotX : RotSink :=
  { files := fun k => if k = 0 then some "X" else none, fpValid := true,
    current_size := 0, max_bytes := 0, max_files := 2, json := false }

/-- A concrete logger state: TRACE threshold, empty queue of bound 2, one
sink and one subscriber, neither having seen anything. -/
def stQ : LoggerState :=
  { threshold := .TRACE, queue := [], sinkLogs := [[]], subLogs := [[]],
    maxQueue := 2, flushed := false }

/-- A concrete in-memory sink with an empty session registry. -/
def skW : InMemorySink :=
  { globalRing := mkRing 2, per_session_capacity := 2, sessions := [] }

/-! ## Ring correctness -/

/-- Correspondence between a ring built by pushing `xs` into a fresh ring of
capacity `c > 0` and the list `xs` itself: the logical size is the clamped
length, the cursor is the push count modulo the capacity, and slot `k % c`
holds `xs[k]` for each of the last `size` indices `k`. -/
def RingInv (c : Nat) (xs : List LogRecord) (s : Ring) : Prop :=
  s.capacity = c ∧
  s.size = min xs.length c ∧
  s.head = xs.length % c ∧
  s.buf.length = min xs.length c ∧
  ∀ k, xs.length - min xs.length c ≤ k → k < xs.length →
    s.buf.getD (k % c) defaultRec = xs.getD k defaultRec

theorem mod_ne_of_close (c k len : Nat) (_hc : 0 < c) (hk : k < len)
    (hsub : len - k < c) : k % c ≠ len % c := by
  intro h
  have hdvd : c ∣ len - k := (Nat.modEq_iff_dvd' (le_of_lt hk)).mp h
  have := Nat.le_of_dvd (by omega) hdvd
  omega

theorem ringInv_mk (c : Nat) (_hc : 0 < c) : RingInv c [] (mkRing c) := by
  refine ⟨rfl, by simp [mkRing], by simp [mkRing], by simp [mkRing], ?_⟩
  intro k _ hk
  simp at hk

theorem ringInv_push (c : Nat) (xs : List LogRecord) (s : Ring) (r : LogRecord)
    (hc : 0 < c) (h : RingInv c xs s) : RingInv c (xs ++ [r]) (s.push r) := by
  obtain ⟨hcap, hsize, hhead, hlen, hget⟩ := h
  have hc0 : s.capacity ≠ 0 := by omega
  by_cases hlt : s.size < s.capacity
  · -- append branch: the ring is not yet full
    have hlenc : xs.length < c := by rw [hcap] at hlt; omega
    refine ⟨?_, ?_, ?_, ?_, ?_⟩ <;>
      simp only [Ring.push, if_neg hc0, if_pos hlt, List.length_append, List.length_singleton]
    · exact hcap
    · omega
    · rw [hhead, hcap, Nat.mod_add_mod, Nat.add_comm]
    · omega
    · intro k hk0 hk1
      have hkc : k < c := by omega
      rw [Nat.mod_eq_of_lt hkc]
      rcases Nat.lt_or_ge k xs.length with hklt | hke
      · rw [List.getD_append _ _ _ _ (by omega), List.getD_append _ _ _ _ hklt]
        have := hget k (by omega) hklt
        rwa [Nat.mod_eq_of_lt hkc] at this
      · have hkeq : k = xs.length := by omega
        subst hkeq
        have hbl : s.buf.length = xs.length := by omega
        rw [List.getD_eq_getElem?_getD, List.getD_eq_getElem?_getD,
          List.getElem?_append_right (by omega), List.getElem?_append_right (by omega),
          hbl]
  · -- overwrite branch: the ring is full
    have hfull : s.size = c := by rw [hcap] at hlt; omega
    have hcle : c ≤ xs.length := by omega
    refine ⟨?_, ?_, ?_, ?_, ?_⟩ <;>
      simp only [Ring.push, if_neg hc0, if_neg hlt, List.length_append,
        List.length_singleton, List.length_set]
    · exact hcap
    · omega
    · rw [hhead, hcap, Nat.mod_add_mod, Nat.add_comm]
    · omega
    · intro k hk0 hk1
      have hmin : min (xs.length + 1) c = c := by omega
      rw [hmin] at hk0
      rcases Nat.lt_or_ge k xs.length with hklt | hke
      · have hne : k % c ≠ xs.length % c :=
          mod_ne_of_close c k xs.length hc hklt (by omega)
        rw [hhead, List.getD_eq_getElem?_getD,
          List.getElem?_set_ne (fun heq => hne heq.symm),
          ← List.getD_eq_getElem?_getD,
          List.getD_append _ _ _ _ hklt]
        exact hget k (by omega) hklt
      · have hkeq : k = xs.length := by omega
        subst hkeq
        have hmlt : xs.length % c < s.buf.length := by
          rw [hlen]
          have := Nat.mod_lt xs.length hc
          omega
        rw [hhead, List.getD_eq_getElem?_getD, List.getElem?_set_self hmlt,
          List.getD_eq_getElem?_getD, List.getElem?_append_right (by omega)]
        simp

theorem ringInv_pushAll_aux (c : Nat) (hc : 0 < c) (xs ys : List LogRecord)
    (s : Ring) (h : RingInv c ys s) : RingInv c (ys ++ xs) (pushAll s xs) := by
  induction xs generalizing ys s with
  | nil => simpa [pushAll] using h
  | cons x rest ih =>
    have h2 := ringInv_push c ys s x hc h
    have := ih (ys ++ [x]) (s.push x) h2
    simpa [pushAll, List.foldl_cons, List.append_assoc] using this

theorem ringInv_pushAll (c : Nat) (hc : 0 < c) (xs : List LogRecord) :
    RingInv c xs (pushAll (mkRing c) xs) := by
  have := ringInv_pushAll_aux c hc xs [] (mkRing c) (ringInv_mk c hc)
  simpa using this

theorem lastN_of_inv (c : Nat) (xs : List LogRecord) (s : Ring) (n : Nat)
    (hc : 0 < c) (h : RingInv c xs s) :
    s.lastN n = xs.drop (xs.length - min n (min xs.length c)) := by
  obtain ⟨hcap, hsize, hhead, hlen, hget⟩ := h
  by_cases hsz : s.size = 0
  · have hxs : xs.length = 0 := by omega
    have : xs = [] := List.length_eq_zero.mp hxs
    subst this
    simp [Ring.lastN, hsz]
  · have hgoal : s.lastN n = (List.range (min n s.size)).map
        (fun i => s.buf.getD
          ((((s.head + s.capacity - s.size) % s.capacity
              + (s.size - min n s.size)) % s.capacity + i) % s.capacity)
          defaultRec) := by
      rw [Ring.lastN, if_neg hsz]
    rw [hgoal]
    have hmle : min n s.size ≤ s.size := Nat.min_le_right _ _
    have hszc : s.size ≤ c := by omega
    have hszxs : s.size ≤ xs.length := by omega
    have hidx : ((s.head + s.capacity - s.size) % s.capacity
        + (s.size - min n s.size)) % s.capacity
        = (xs.length - min n s.size) % c := by
      rw [hcap, hhead, Nat.mod_add_mod]
      have e1 : xs.length % c + c - s.size + (s.size - min n s.size)
          = xs.length % c + (c - s.size + (s.size - min n s.size)) := by omega
      rw [e1, Nat.mod_add_mod]
      have e2 : xs.length + (c - s.size + (s.size - min n s.size))
          = (xs.length - min n s.size) + c := by omega
      rw [e2, Nat.add_mod_right]
    rw [hidx]
    have hmfin : xs.length - min n (min xs.length c)
        = xs.length - min n s.size := by omega
    rw [hmfin]
    apply List.ext_getElem
    · simp
      omega
    · intro i h1 h2
      simp only [List.getElem_map, List.getElem_range, List.length_map,
        List.length_range] at h1 ⊢
      rw [hcap, Nat.mod_add_mod]
      have hwin0 : xs.length - min xs.length c ≤ xs.length - min n s.size + i := by omega
      have hwin1 : xs.length - min n s.size + i < xs.length := by omega
      have hval := hget (xs.length - min n s.size + i) hwin0 hwin1
      rw [hval, List.getD_eq_getElem _ _ hwin1, List.getElem_drop]

theorem push_capacity_zero (s : Ring) (r : LogRecord) (h : s.capacity = 0) :
    s.push r = s := by
  simp [Ring.push, h]

theorem pushAll_capacity_zero (xs : List LogRecord) :
    pushAll (mkRing 0) xs = mkRing 0 := by
  induction xs with
  | nil => rfl
  | cons x rest ih =>
    simpa [pushAll, push_capacity_zero (mkRing 0) x rfl] using ih

/-- The fully general lastN law: a ring of capacity `c` fed `xs` answers
`lastN n` with the last `min n (min xs.length c)` pushed records in
chronological order. -/
theorem ring_lastN_eq_drop (c n : Nat) (xs : List LogRecord) :
    (pushAll (mkRing c) xs).lastN n
      = xs.drop (xs.length - min n (min xs.length c)) := by
  rcases Nat.eq_zero_or_pos c with hc | hc
  · subst hc
    rw [pushAll_capacity_zero]
    simp [Ring.lastN, mkRing]
  · exact lastN_of_inv c xs _ n hc (ringInv_pushAll c hc xs)

/-- C7: for a capacity-3 ring, push(a,b,c,d) then lastN(3) = [b,c,d] and
lastN(10) = [b,c,d] (clamped); in general, lastN(n) on a ring of capacity c
that was fed the records xs returns the n most-recently pushed items, n
clamped to the current size min(|xs|, c), in chronological order — i.e.
exactly the final min(n, min(|xs|, c)) records of xs. -/
theorem ring_lastN_returns_most_recent (c n : Nat) (xs : List LogRecord) :
    (pushAll (mkRing 3) [recA, recB, recC, recD]).lastN 3 = [recB, recC, recD] ∧
    (pushAll (mkRing 3) [recA, recB, recC, recD]).lastN 10 = [recB, recC, recD] ∧
    (pushAll (mkRing c) xs).lastN n
      = xs.drop (xs.length - min n (min xs.length c)) := by
  refine ⟨by decide, by decide, ring_lastN_eq_drop c n xs⟩

/-- C1 (code bug): `Ring::clear` resizes the backing vector to `capacity_`
value-initialised records instead of to 0 (the constructor and `reset` both
resize to 0).  A push after clear() therefore appends PAST the window that
lastN reads modulo the capacity: on a capacity-2 ring, clear() then push(recA)
makes lastN(1) return the value-initialised default record, not recA, whereas
the same push on a freshly constructed ring returns recA; the backing vector
also grows to capacity+1 records.  This contradicts the spec's "clear():
empties logically, retains capacity" behaving like a fresh ring. -/
theorem ring_clear_then_push_is_lost :
    (((mkRing 2).clear.push recA).lastN 1 = [defaultRec] ∧ recA ≠ defaultRec) ∧
    ((mkRing 2).push recA).lastN 1 = [recA] ∧
    ((mkRing 2).clear.push recA).buf.length = 3 ∧
    ((mkRing 2).clear.push recA).capacity = 2 := by
  refine ⟨⟨by decide, by decide⟩, by decide, by decide, by decide⟩

/-! ## Intake queue: bound and drop-oldest policy -/

theorem enqueueBounded_length_le (M : Nat) (q : List LogRecord) (r : LogRecord)
    (hM : 0 < M) (hq : q.length ≤ M) : (enqueueBounded M q r).length ≤ M := by
  rw [enqueueBounded]
  by_cases h : M ≤ q.length
  · rw [if_pos h]
    simp [List.length_tail]
    omega
  · rw [if_neg h]
    simp
    omega

theorem enqueueBounded_foldl_drop (M : Nat) (rs : List LogRecord) (hM : 0 < M) :
    rs.foldl (enqueueBounded M) [] = rs.drop (rs.length - M) := by
  induction rs using List.reverseRecOn with
  | nil => simp
  | append_singleton rs r ih =>
    rw [List.foldl_append, List.foldl_cons, List.foldl_nil, ih, enqueueBounded]
    by_cases h : M ≤ rs.length
    · have hlen : (rs.drop (rs.length - M)).length = M := by
        simp
        omega
      rw [if_pos (by omega), List.tail_drop, ← List.drop_append_of_le_length (by omega)]
      have hL : (rs ++ [r]).length - M = rs.length - M + 1 := by
        simp
        omega
      rw [hL]
    · have hlen : (rs.drop (rs.length - M)).length = rs.length := by
        simp
        omega
      rw [if_neg (by omega)]
      have h0 : rs.length - M = 0 := by omega
      have h1 : (rs ++ [r]).length - M = 0 := by simp; omega
      rw [h0, h1, List.drop_zero, List.drop_zero]

theorem enqueueBounded_getLast (M : Nat) (q : List LogRecord) (r : LogRecord) :
    (enqueueBounded M q r).getLast?.getD defaultRec = r := by
  rw [enqueueBounded, List.getLast?_concat]
  rfl

theorem logRec_below (st : LoggerState) (r : LogRecord)
    (h : r.level.toNat < st.threshold.toNat) : logRec st r = st := by
  rw [logRec, if_pos h]

theorem logRec_accepted (st : LoggerState) (r : LogRecord)
    (h : st.threshold.toNat ≤ r.level.toNat) :
    logRec st r = { st with
      queue := enqueueBounded st.maxQueue st.queue r
      subLogs := st.subLogs.map (fun l => l ++ [r]) } := by
  rw [logRec, if_neg (by omega)]
  simp only [enqueueBounded_getLast]

theorem submitAll_preserves (rs : List LogRecord) (st : LoggerState) :
    (submitAll st rs).maxQueue = st.maxQueue ∧
    (submitAll st rs).threshold = st.threshold ∧
    (submitAll st rs).sinkLogs = st.sinkLogs ∧
    (submitAll st rs).flushed = st.flushed := by
  induction rs generalizing st with
  | nil => exact ⟨rfl, rfl, rfl, rfl⟩
  | cons x rest ih =>
    have hstep : submitAll st (x :: rest) = submitAll (logRec st x) rest := rfl
    rw [hstep]
    have hx : (logRec st x).maxQueue = st.maxQueue ∧
        (logRec st x).threshold = st.threshold ∧
        (logRec st x).sinkLogs = st.sinkLogs ∧
        (logRec st x).flushed = st.flushed := by
      rw [logRec]
      by_cases h : x.level.toNat < st.threshold.toNat
      · rw [if_pos h]
        exact ⟨rfl, rfl, rfl, rfl⟩
      · rw [if_neg h]
        exact ⟨rfl, rfl, rfl, rfl⟩
    obtain ⟨h1, h2, h3, h4⟩ := ih (logRec st x)
    exact ⟨h1.trans hx.1, h2.trans hx.2.1, h3.trans hx.2.2.1, h4.trans hx.2.2.2⟩

theorem submitAll_queue_foldl (rs : List LogRecord) (st : LoggerState)
    (hacc : ∀ r ∈ rs, st.threshold.toNat ≤ r.level.toNat) :
    (submitAll st rs).queue = rs.foldl (enqueueBounded st.maxQueue) st.queue := by
  induction rs generalizing st with
  | nil => rfl
  | cons x rest ih =>
    have hstep : submitAll st (x :: rest) = submitAll (logRec st x) rest := rfl
    have hx := logRec_accepted st x (hacc x (List.mem_cons_self _ _))
    have hacc2 : ∀ r ∈ rest, (logRec st x).threshold.toNat ≤ r.level.toNat := by
      intro r hr
      rw [hx]
      exact hacc r (List.mem_cons_of_mem _ hr)
    rw [hstep, ih (logRec st x) hacc2, List.foldl_cons, hx]

theorem submitAll_no_overflow (rs : List LogRecord) (st : LoggerState)
    (hacc : ∀ r ∈ rs, st.threshold.toNat ≤ r.level.toNat)
    (hlen : st.queue.length + rs.length ≤ st.maxQueue) :
    (submitAll st rs).queue = st.queue ++ rs := by
  induction rs generalizing st with
  | nil => simp [submitAll]
  | cons x rest ih =>
    have hstep : submitAll st (x :: rest) = submitAll (logRec st x) rest := rfl
    have hx := logRec_accepted st x (hacc x (List.mem_cons_self _ _))
    have hq : (logRec st x).queue = st.queue ++ [x] := by
      rw [hx]
      simp only [enqueueBounded]
      rw [if_neg (by simp at hlen; omega)]
    have hacc2 : ∀ r ∈ rest, (logRec st x).threshold.toNat ≤ r.level.toNat := by
      intro r hr
      rw [hx]
      exact hacc r (List.mem_cons_of_mem _ hr)
    have hlen2 : (logRec st x).queue.length + rest.length ≤ (logRec st x).maxQueue := by
      rw [hq, hx]
      simp at hlen ⊢
      omega
    rw [hstep, ih (logRec st x) hacc2 hlen2, hq, List.append_assoc]
    rfl

theorem drainQueue_eq (q : List LogRecord) (logs : List (List LogRecord)) :
    drainQueue q logs = logs.map (fun l => l ++ q) := by
  induction q generalizing logs with
  | nil => simp [drainQueue]
  | cons r rest ih =>
    rw [drainQueue, ih, List.map_map]
    have hc : ((fun l => l ++ rest) ∘ fun l => l ++ [r])
        = (fun l => l ++ r :: rest) := by
      funext l
      simp
    rw [hc]

/-- C3: the intake queue never exceeds the configured maximum M; a submission
arriving with the queue at M pops the front (logically oldest) record before
appending the new one at the back; submitting any accepted sequence rs into
an empty queue retains exactly the most recent min(|rs|, M) records in
submission order (so K+1 submissions against capacity K leave rs.tail).
`logRec` is total, so no error is ever returned to the producer. -/
theorem queue_bounded_drop_oldest (st : LoggerState) (r : LogRecord)
    (rs : List LogRecord) (hM : 0 < st.maxQueue)
    (hq : st.queue.length ≤ st.maxQueue) :
    (logRec st r).queue.length ≤ st.maxQueue ∧
    (st.threshold.toNat ≤ r.level.toNat → st.queue.length = st.maxQueue →
      (logRec st r).queue = st.queue.tail ++ [r]) ∧
    (st.queue = [] → (∀ x ∈ rs, st.threshold.toNat ≤ x.level.toNat) →
      (submitAll st rs).queue = rs.drop (rs.length - st.maxQueue)) := by
  refine ⟨?_, ?_, ?_⟩
  · rw [logRec]
    by_cases h : r.level.toNat < st.threshold.toNat
    · rw [if_pos h]
      exact hq
    · rw [if_neg h]
      exact enqueueBounded_length_le st.maxQueue st.queue r hM hq
  · intro hge hfull
    rw [logRec_accepted st r hge]
    simp only [enqueueBounded]
    rw [if_pos (by omega)]
  · intro hempty hacc
    rw [submitAll_queue_foldl rs st hacc, hempty,
      enqueueBounded_foldl_drop st.maxQueue rs hM]

/-- C4: a submission strictly below the active threshold is dropped before
entering the queue and leaves the whole logger state untouched, so no sink
or subscriber ever observes it; after setLevel(WARN), TRACE/DEBUG/INFO
submissions leave the state untouched while WARN/ERROR/FATAL submissions
are appended to the queue and observed by every subscriber. -/
theorem threshold_filters_submissions (st : LoggerState) (r : LogRecord) :
    (r.level.toNat < st.threshold.toNat → logRec st r = st) ∧
    ((r.level = .TRACE ∨ r.level = .DEBUG ∨ r.level = .INFO) →
      logRec (setLevel st .WARN) r = setLevel st .WARN) ∧
    ((r.level = .WARN ∨ r.level = .ERROR ∨ r.level = .FATAL) →
      (logRec (setLevel st .WARN) r).queue
          = enqueueBounded st.maxQueue st.queue r ∧
      (logRec (setLevel st .WARN) r).subLogs
          = st.subLogs.map (fun l => l ++ [r]) ∧
      (logRec (setLevel st .WARN) r).sinkLogs = st.sinkLogs) := by
  refine ⟨logRec_below st r, ?_, ?_⟩
  · intro hlow
    apply logRec_below
    rcases hlow with h | h | h <;> rw [h] <;> simp [setLevel, LogLevel.toNat]
  · intro hhigh
    have hge : (setLevel st .WARN).threshold.toNat ≤ r.level.toNat := by
      rcases hhigh with h | h | h <;> rw [h] <;> simp [setLevel, LogLevel.toNat]
    rw [logRec_accepted _ r hge]
    exact ⟨rfl, rfl, rfl⟩

/-- C5: for a sequence of accepted submissions (all at or above the active
threshold) during which the bounded queue never overflows, after the worker
drains every registered sink has received the full sequence appended to its
log in exactly the submission (FIFO) order. -/
theorem sinks_receive_fifo (st : LoggerState) (rs : List LogRecord)
    (hacc : ∀ x ∈ rs, st.threshold.toNat ≤ x.level.toNat)
    (hq : st.queue = []) (hlen : rs.length ≤ st.maxQueue) :
    (shutdownModel (submitAll st rs)).sinkLogs
      = st.sinkLogs.map (fun l => l ++ rs) := by
  have hqueue := submitAll_no_overflow rs st hacc (by rw [hq]; simpa using hlen)
  obtain ⟨_, _, hsink, _⟩ := submitAll_preserves rs st
  have hmodel : (shutdownModel (submitAll st rs)).sinkLogs
      = drainQueue (submitAll st rs).queue (submitAll st rs).sinkLogs := rfl
  rw [hmodel, hqueue, hsink, hq, List.nil_append, drainQueue_eq]

/-- C6: the worker loop condition `running_ || !queue_.empty()` is false
exactly when stop has been requested AND the queue is empty (so the loop
exits only then), and shutdown(flush=true) returns with the queue fully
drained, every previously queued record delivered to every sink in FIFO
order behind that sink's earlier records, and the sinks flushed. -/
theorem worker_exit_iff_and_shutdown_drains (running : Bool)
    (q : List LogRecord) (st : LoggerState) :
    (loopCond running q = false ↔ running = false ∧ q = []) ∧
    (shutdownModel st).queue = [] ∧
    (shutdownModel st).flushed = true ∧
    (shutdownModel st).sinkLogs = st.sinkLogs.map (fun l => l ++ st.queue) := by
  refine ⟨?_, rfl, rfl, ?_⟩
  · cases running <;> cases q <;> simp [loopCond]
  · have hmodel : (shutdownModel st).sinkLogs = drainQueue st.queue st.sinkLogs := rfl
    rw [hmodel, drainQueue_eq]

/-! ## Rotation correctness -/

theorem rotStep_below (files : Nat → Option String) (i j : Nat) (h : j < i) :
    rotStep files i j = files j := by
  rw [rotStep]
  by_cases hs : (files i).isSome
  · rw [if_pos hs, if_neg (by omega), if_neg (by omega)]
  · rw [if_neg hs]

theorem rotStep_above (files : Nat → Option String) (i j : Nat) (h : i + 1 < j) :
    rotStep files i j = files j := by
  rw [rotStep]
  by_cases hs : (files i).isSome
  · rw [if_pos hs, if_neg (by omega), if_neg (by omega)]
  · rw [if_neg hs]

theorem rotStep_at (files : Nat → Option String) (i : Nat) :
    rotStep files i i = if (files i).isSome then none else files i := by
  rw [rotStep]
  by_cases hs : (files i).isSome
  · rw [if_pos hs, if_pos hs, if_neg (by omega), if_pos rfl]
  · rw [if_neg hs, if_neg hs]

theorem rotStep_target (files : Nat → Option String) (i : Nat) :
    rotStep files i (i + 1)
      = if (files i).isSome then files i else files (i + 1) := by
  rw [rotStep]
  by_cases hs : (files i).isSome
  · rw [if_pos hs, if_pos hs, if_pos rfl]
  · rw [if_neg hs, if_neg hs]

/-- Net effect of the rename loop with `n ≥ 1` iterations (i = n-1 … 0):
slot 0 empties, every slot 1 ≤ j ≤ n-1 receives the old content of slot
j-1, slot n receives slot n-1's content when that existed (keeping its own
stale content otherwise), and slots above n are untouched. -/
theorem rotLoop_char (files : Nat → Option String) (n : Nat) (hn : 1 ≤ n) :
    rotLoop files n 0 = none ∧
    (∀ j, 1 ≤ j → j ≤ n - 1 → rotLoop files n j = files (j - 1)) ∧
    rotLoop files n n = (if (files (n - 1)).isSome then files (n - 1) else files n) ∧
    (∀ j, n < j → rotLoop files n j = files j) := by
  induction n generalizing files with
  | zero => omega
  | succ n ih =>
    rcases Nat.eq_zero_or_pos n with hn0 | hn1
    · subst hn0
      have hone : rotLoop files 1 = rotStep files 0 := rfl
      refine ⟨?_, ?_, ?_, ?_⟩
      · rw [hone, rotStep_at]
        by_cases hs : (files 0).isSome
        · rw [if_pos hs]
        · rw [if_neg hs]
          exact Option.not_isSome_iff_eq_none.mp hs
      · intro j h1 h2
        omega
      · rw [hone]
        exact rotStep_target files 0
      · intro j hj
        rw [hone]
        exact rotStep_above files 0 j (by omega)
    · have hstep : rotLoop files (n + 1) = rotLoop (rotStep files n) n := rfl
      obtain ⟨ih0, ihmid, ihtop, ihhigh⟩ := ih (rotStep files n) hn1
      refine ⟨?_, ?_, ?_, ?_⟩
      · rw [hstep]
        exact ih0
      · intro j h1 h2
        rw [hstep]
        rcases Nat.lt_or_ge j n with hjn | hjn
        · rcases Nat.lt_or_ge j (n - 1 + 1) with hj1 | hj1
          · rw [ihmid j h1 (by omega), rotStep_below files n (j - 1) (by omega)]
          · have hj : j = n := by omega
            omega
        · have hj : j = n := by omega
          rw [hj, ihtop, rotStep_below files n (n - 1) (by omega)]
          by_cases hs : (files (n - 1)).isSome
          · rw [if_pos hs]
          · rw [if_neg hs]
            have hnone : files (n - 1) = none := Option.not_isSome_iff_eq_none.mp hs
            rw [rotStep_at]
            by_cases hs2 : (files n).isSome
            · rw [if_pos hs2, hnone]
            · rw [if_neg hs2, hnone]
              exact Option.not_isSome_iff_eq_none.mp hs2
      · rw [hstep, ihhigh (n + 1) (by omega), rotStep_target]
        have he : n + 1 - 1 = n := by omega
        rw [he]
      · intro j hj
        rw [hstep, ihhigh j (by omega), rotStep_above files n j (by omega)]

/-- C2: when rotation fires (real file handle, pending write would overflow),
the sink opens a fresh empty base.0.log with the tracked size reset, each
existing base.j.log (j < max_files) ends up at base.(j+1).log — in particular
the old occupant of index max_files is dropped — and, provided the starting
state had no file above index max_files and no gap at the top, after rotation
no file with an index beyond max_files exists. -/
theorem rotation_shifts_files (st : RotSink) (n j : Nat)
    (hfp : st.fpValid = true)
    (htrig : st.max_bytes < st.current_size + n)
    (hmf : 1 ≤ st.max_files)
    (hbeyond : ∀ k, st.max_files < k → st.files k = none)
    (hchain : (st.files st.max_files).isSome → (st.files (st.max_files - 1)).isSome) :
    (rotateIfNeeded st n).files 0 = some "" ∧
    (rotateIfNeeded st n).current_size = 0 ∧
    (j < st.max_files → (rotateIfNeeded st n).files (j + 1) = st.files j) ∧
    (st.max_files < j → (rotateIfNeeded st n).files j = none) := by
  have hrot : rotateIfNeeded st n = { st with
      files := fun k => if k = 0 then some "" else rotLoop st.files st.max_files k,
      current_size := 0 } := by
    rw [rotateIfNeeded, if_neg (by rw [hfp]; simp), if_neg (by omega)]
  obtain ⟨h0, hmid, htop, hhigh⟩ := rotLoop_char st.files st.max_files hmf
  rw [hrot]
  refine ⟨by simp, rfl, ?_, ?_⟩
  · intro hj
    show (if j + 1 = 0 then some "" else rotLoop st.files st.max_files (j + 1)) = st.files j
    rw [if_neg (by omega)]
    rcases Nat.lt_or_ge (j + 1) st.max_files with hlt | hge
    · rw [hmid (j + 1) (by omega) (by omega)]
      congr 1
    · have hj1 : j + 1 = st.max_files := by omega
      rw [hj1, htop]
      by_cases hs : (st.files (st.max_files - 1)).isSome
      · rw [if_pos hs]
        have : j = st.max_files - 1 := by omega
        rw [this]
      · rw [if_neg hs]
        have hnone1 : st.files (st.max_files - 1) = none :=
          Option.not_isSome_iff_eq_none.mp hs
        have hnone2 : st.files st.max_files = none := by
          by_cases hs2 : (st.files st.max_files).isSome
          · exact absurd (hchain hs2) hs
          · exact Option.not_isSome_iff_eq_none.mp hs2
        have : j = st.max_files - 1 := by omega
        rw [this, hnone1, hnone2]
  · intro hj
    show (if j = 0 then some "" else rotLoop st.files st.max_files j) = none
    rw [if_neg (by omega), hhigh j hj]
    exact hbeyond j hj

/-- C8: with a real file handle, `consume` rotates if and only if the
tracked size plus the pending formatted write would exceed max_bytes: when
it still fits, the bytes are appended to the current base.0.log and the
tracked size grows by the write, every other file untouched; when it would
overflow, the triggering write lands alone in the fresh base.0.log, the
tracked size restarts at zero plus the write, and (with at least two
retained files) the prior current file's content is now at base.1.log. -/
theorem rotating_consume_trigger (st : RotSink) (rec : LogRecord) (j : Nat)
    (hfp : st.fpValid = true) (hj : 0 < j) :
    (st.current_size + (formatRecord st.json rec).length ≤ st.max_bytes →
      (st.consume rec).files 0
          = some ((st.files 0).getD "" ++ formatRecord st.json rec) ∧
      (st.consume rec).current_size
          = st.current_size + (formatRecord st.json rec).length ∧
      (st.consume rec).files j = st.files j) ∧
    (st.max_bytes < st.current_size + (formatRecord st.json rec).length →
      (st.consume rec).files 0 = some (formatRecord st.json rec) ∧
      (st.consume rec).current_size = (formatRecord st.json rec).length ∧
      (2 ≤ st.max_files → (st.consume rec).files 1 = st.files 0)) := by
  constructor
  · intro hfit
    have hnorot : rotateIfNeeded st (formatRecord st.json rec).length = st := by
      rw [rotateIfNeeded, if_neg (by rw [hfp]; simp), if_pos hfit]
    have huf : st.consume rec = { st with
        files := fun k => if k = 0 then
            some ((st.files 0).getD "" ++ formatRecord st.json rec)
          else st.files k,
        current_size := st.current_size + (formatRecord st.json rec).length } := by
      rw [RotSink.consume]
      simp only [hnorot, hfp, if_pos]
    rw [huf]
    refine ⟨by simp, rfl, ?_⟩
    show (if j = 0 then _ else st.files j) = st.files j
    rw [if_neg (by omega)]
  · intro hover
    have hrot : rotateIfNeeded st (formatRecord st.json rec).length = { st with
        files := fun k => if k = 0 then some ""
          else rotLoop st.files st.max_files k,
        current_size := 0 } := by
      rw [rotateIfNeeded, if_neg (by rw [hfp]; simp), if_neg (by omega)]
    have huf : st.consume rec = { st with
        files := fun k => if k = 0 then some ("" ++ formatRecord st.json rec)
          else (if k = 0 then some "" else rotLoop st.files st.max_files k),
        current_size := 0 + (formatRecord st.json rec).length } := by
      rw [RotSink.consume]
      simp only [hrot, hfp, if_pos]
      rfl
    rw [huf]
    refine ⟨by simp, by simp, ?_⟩
    intro hmf2
    show (if (1 : Nat) = 0 then some ("" ++ formatRecord st.json rec)
      else if (1 : Nat) = 0 then some ""
      else rotLoop st.files st.max_files 1) = st.files 0
    obtain ⟨_, hmid, _, _⟩ := rotLoop_char st.files st.max_files (by omega)
    rw [if_neg (by omega), if_neg (by omega), hmid 1 (by omega) (by omega)]

/-! ## Console rendering -/

theorem data_head_of_append (s t : String) (c : Char)
    (h : s.data.head? = some c) : (s ++ t).data.head? = some c := by
  rw [String.data_append]
  cases hs : s.data with
  | nil =>
    rw [hs] at h
    simp at h
  | cons a l =>
    rw [hs] at h
    simp at h
    simp [h]

/-- C9 (amended): the console sink renders a single-line JSON object in JSON
mode and the SAME plain-text line in both PLAIN and COLORED modes — the
source's non-JSON branch has no ANSI colouring code, so COLORED output is
identical to PLAIN output rather than containing extra escape sequences;
JSON output differs from the plain output for every record (it starts with
a brace where the plain line starts with a bracket). -/
theorem console_render_modes (rec : LogRecord) :
    renderConsole Mode.PLAIN rec = renderConsole Mode.COLORED rec ∧
    (renderConsole Mode.JSON rec).data.head? = some (Char.ofNat 123) ∧
    (renderConsole Mode.PLAIN rec).data.head? = some (Char.ofNat 91) ∧
    renderConsole Mode.JSON rec ≠ renderConsole Mode.PLAIN rec := by
  have hplain : renderConsole Mode.PLAIN rec = renderConsole Mode.COLORED rec := by
    rw [renderConsole, renderConsole, if_neg (by decide), if_neg (by decide)]
  have hjson : (renderConsole Mode.JSON rec).data.head? = some (Char.ofNat 123) := by
    rw [renderConsole, if_pos rfl]
    repeat apply data_head_of_append
    decide
  have hpl : (renderConsole Mode.PLAIN rec).data.head? = some (Char.ofNat 91) := by
    rw [renderConsole, if_neg (by decide)]
    repeat apply data_head_of_append
    decide
  refine ⟨hplain, hjson, hpl, ?_⟩
  intro heq
  rw [heq, hpl] at hjson
  simp at hjson

/-- C9 counterexample: at the concrete record recA the COLORED rendering is
identical to the PLAIN rendering and contains no ASCII ESC (27) character,
refuting that the three modes are pairwise distinct with ANSI escapes in
COLORED output. -/
theorem console_colored_equals_plain_at_recA :
    renderConsole Mode.COLORED recA = renderConsole Mode.PLAIN recA ∧
    (renderConsole Mode.COLORED recA).data.contains (Char.ofNat 27) = false := by
  exact ⟨by decide, by decide⟩

/-! ## InMemorySink absent-session queries -/

theorem lookup_filter_ne (l : List (String × Ring)) (sid : String) :
    (l.filter (fun p => p.1 ≠ sid)).lookup sid = none := by
  induction l with
  | nil => rfl
  | cons a rest ih =>
    by_cases h : a.1 = sid
    · have hd : (decide (a.1 ≠ sid)) = false := by simp [h]
      rw [List.filter_cons, hd]
      simpa using ih
    · have hd : (decide (a.1 ≠ sid)) = true := by simp [h]
      rw [List.filter_cons, hd]
      simp only [if_pos trivial]
      have hne : (sid == a.1) = false := beq_eq_false_iff_ne.mpr (Ne.symm h)
      rw [List.lookup, hne]
      exact ih

/-- C10: for a session id with no ring in the registry, recentForSession
returns the empty vector and exportSession the empty string (the queries are
pure reads of the sink state, so they create no ring and modify nothing);
a cleared session has no registry entry, so the same holds after
clearSession. -/
theorem absent_session_queries_empty (sk sk2 : InMemorySink) (sid sid2 : String)
    (n : Nat) (h : sk.sessions.lookup sid = none) :
    sk.recentForSession sid n = [] ∧
    sk.exportSession sid = "" ∧
    (sk2.clearSession sid2).sessions.lookup sid2 = none := by
  have h1 : sk.recentForSession sid n = [] := by
    rw [InMemorySink.recentForSession, h]
  refine ⟨h1, ?_, lookup_filter_ne _ _⟩
  rw [InMemorySink.exportSession]
  have h2 : sk.recentForSession sid SIZE_MAX = [] := by
    rw [InMemorySink.recentForSession, h]
  rw [h2]
  rfl

/-! ## Witnesses: the hypothesised theorems applied at concrete inputs -/

theorem rotation_shifts_files_witness :
    (rotateIfNeeded rotW 1).files 0 = some "" ∧
    (rotateIfNeeded rotW 1).files 2 = some "B" ∧
    (rotateIfNeeded rotW 1).files 3 = none := by
  have hbeyond : ∀ k, rotW.max_files < k → rotW.files k = none := by
    intro k hk
    have hk2 : 2 < k := hk
    show (if k = 0 then some "A" else if k = 1 then some "B" else none) = none
    rw [if_neg (by omega), if_neg (by omega)]
  have h1 := rotation_shifts_files rotW 1 1 rfl (by decide) (by decide) hbeyond (by decide)
  have h3 := rotation_shifts_files rotW 1 3 rfl (by decide) (by decide) hbeyond (by decide)
  exact ⟨h1.1, (h1.2.2.1 (by decide)).trans (by decide),
    h3.2.2.2 (by decide)⟩

theorem queue_bounded_drop_oldest_witness :
    (logRec stQ recA).queue.length ≤ 2 ∧
    (submitAll stQ [recA, recB, recD]).queue = [recB, recD] := by
  have h := queue_bounded_drop_oldest stQ recA [recA, recB, recD] (by decide) (by decide)
  exact ⟨h.1, (h.2.2 rfl (by decide)).trans (by decide)⟩

theorem sinks_receive_fifo_witness :
    (shutdownModel (submitAll stQ [recA, recB])).sinkLogs = [[recA, recB]] := by
  have h := sinks_receive_fifo stQ [recA, recB] (by decide) rfl (by decide)
  exact h.trans (by decide)

theorem rotating_consume_trigger_witness :
    (rotX.consume recA).files 0 = some (formatRecord false recA) ∧
    (rotX.consume recA).current_size = (formatRecord false recA).length ∧
    (rotX.consume recA).files 1 = some "X" := by
  have h := rotating_consume_trigger rotX recA 1 rfl (by decide)
  have h2 := h.2 (by decide)
  exact ⟨h2.1, h2.2.1, (h2.2.2 (by decide)).trans (by decide)⟩

theorem absent_session_queries_empty_witness :
    skW.recentForSession "A" 5 = [] ∧ skW.exportSession "A" = "" := by
  have h := absent_session_queries_empty skW skW "A" "A" 5 rfl
  exact ⟨h.1, h.2.1⟩

end KeyForge
